import Mathlib

/-!
Shallow embedding of the block-index / active-chain query engine of
`src/rpcblockchain.cpp` (safecoin).  Pure functions are translated to Lean
functions; the global state (`mapBlockIndex`, `chainActive`) is passed
explicitly: the store is a list of nodes (iteration order of the map is
irrelevant to every set-valued result proved below) and the active chain is
the dense height-indexed list of its nodes, genesis first.

The `CChain` member functions (`Height`, `Tip`, `operator[]`, `Contains`,
`FindFork`) live in `chain.h` / `chain.cpp`, which are not part of the given
sources; those definitions are modelled from the spec and are marked as such.
-/

namespace Safecoin

/-- A block-index node (C++ `CBlockIndex`).  `id` models the node's address:
pointer identity, used by `CompareBlocksByHeight` as the tie-break; `pprev`
holds the parent's block hash (`pprev == NULL` becomes `none`), resolved
through the store where the C++ follows the pointer. -/
structure CBlockIndex where
  id : Nat
  hash : Nat
  nHeight : Int
  pprev : Option Nat
  nStatus : Nat
  nChainTx : Nat
  nBits : Nat
deriving DecidableEq

/-- Modelled from the spec: `statusFlags` progress level `VALID_TREE`
(structurally sound tree membership); `chain.h` is not in the given sources. -/
def BLOCK_VALID_TREE : Nat := 2

/-- Modelled from the spec: `statusFlags` progress level `VALID_SCRIPTS`
(full script verification done); `chain.h` is not in the given sources. -/
def BLOCK_VALID_SCRIPTS : Nat := 5

/-- Modelled from the spec: mask of the validation-progress level inside
`nStatus`; `chain.h` is not in the given sources. -/
def BLOCK_VALID_MASK : Nat := 7

/-- Modelled from the spec: mask of the `FAILED` / `FAILED_PARENT` markers
(failed on itself or inherited from an ancestor); `chain.h` is not in the
given sources. -/
def BLOCK_FAILED_MASK : Nat := 96

/-- Modelled from the spec: `CBlockIndex::IsValid(nUpTo)` — validation has
progressed at least to level `nUpTo` and no failed-validation marker is set;
`chain.h` is not in the given sources. -/
def IsValid (n : CBlockIndex) (nUpTo : Nat) : Bool :=
  decide ((n.nStatus &&& BLOCK_FAILED_MASK) = 0) &&
    decide (nUpTo ≤ n.nStatus &&& BLOCK_VALID_MASK)

namespace Chain

/-- Modelled from the spec: current tip height of the dense sequence, a
sentinel (`-1`, one below genesis) for the empty chain. -/
def Height (chain : List CBlockIndex) : Int := (chain.length : Int) - 1

/-- Modelled from the spec: `tip()` is the last element, `none` if empty. -/
def Tip (chain : List CBlockIndex) : Option CBlockIndex := chain.getLast?

/-- Modelled from the spec: positional lookup `at(height)` / `operator[]`;
`none` (`OutOfRange`) when the height is negative or exceeds the tip
height. -/
def atHeight (chain : List CBlockIndex) (h : Int) : Option CBlockIndex :=
  if h < 0 ∨ Height chain < h then none else chain.get? h.toNat

/-- Modelled from the spec: `contains(node)` holds iff the element of the
sequence at the node's own height is exactly this node (identity, not mere
height equality). -/
def Contains (chain : List CBlockIndex) (n : CBlockIndex) : Bool :=
  decide (atHeight chain n.nHeight = some n)

end Chain

/-- Looking a node up by hash in the store (`mapBlockIndex.find`); used to
resolve `pprev` pointers in this embedding. -/
def lookupHash (store : List CBlockIndex) (h : Nat) : Option CBlockIndex :=
  store.find? (fun n => n.hash == h)

/-- The node a `pprev` pointer designates: `none` for genesis (`pprev ==
NULL`) or when the parent is not in the store. -/
def resolveParent (store : List CBlockIndex) (m : CBlockIndex) : Option CBlockIndex :=
  match m.pprev with
  | none => none
  | some hh => lookupHash store hh

/-- Modelled from the spec: `CChain::FindFork(node)` walks `node`'s parent
chain upward, checking `Contains` at each step, until a common node is found
or the walk runs past the chain's genesis (`none`, disjoint forests);
`chain.cpp` is not in the given sources.  `fuel` bounds the walk. -/
def findForkAux (store chain : List CBlockIndex) : Nat → CBlockIndex → Option CBlockIndex
  | 0, _ => none
  | fuel + 1, n =>
    if Chain.Contains chain n then some n
    else
      match resolveParent store n with
      | none => none
      | some p => findForkAux store chain fuel p

/-- Modelled from the spec: entry point of the fork-locating walk; a node at
height `h` has at most `h + 1` strict ancestors before the walk falls below
genesis. -/
def FindFork (store chain : List CBlockIndex) (n : CBlockIndex) : Option CBlockIndex :=
  findForkAux store chain (n.nHeight.toNat + 1) n

/-- Source `GetDifficultyINTERNAL`, first `while` loop (rpcblockchain.cpp
53-57): multiply by 256 once per unit the input exponent is below the
minimum-difficulty exponent. -/
def mulLoop : Nat → ℚ → ℚ
  | 0, d => d
  | k + 1, d => mulLoop k (d * 256)

/-- Source `GetDifficultyINTERNAL`, second `while` loop (rpcblockchain.cpp
58-62): divide by 256 once per unit the input exponent is above the
minimum-difficulty exponent. -/
def divLoop : Nat → ℚ → ℚ
  | 0, d => d
  | k + 1, d => divLoop k (d / 256)

/-- Source `GetDifficultyINTERNAL`, lines 45-64: mantissa ratio against the
minimum-difficulty (`powLimit`) compact target, then exponent alignment by
the two `while` loops.  Real-number semantics are modelled by `ℚ`. -/
def difficultyFromBits (powLimit bits : Nat) : ℚ :=
  let nShift := bits >>> 24 &&& 0xff
  let nShiftAmount := powLimit >>> 24 &&& 0xff
  let dDiff : ℚ := ((powLimit &&& 0xffffff : Nat) : ℚ) / ((bits &&& 0xffffff : Nat) : ℚ)
  divLoop (nShift - nShiftAmount) (mulLoop (nShiftAmount - nShift) dDiff)

/-- Source `GetDifficultyINTERNAL` (rpcblockchain.cpp 25-65).  The external
inputs `Params().GetConsensus().powLimit` (compact form) and
`GetNextWorkRequired` are parameters `powLimit` and `nextWork`: the spec says
the core only carries the next-required-target value through. -/
def GetDifficultyINTERNAL (chain : List CBlockIndex) (nextWork : CBlockIndex → Nat)
    (powLimit : Nat) (blockindex : Option CBlockIndex) (networkDifficulty : Bool) : ℚ :=
  match blockindex with
  | none =>
    match Chain.Tip chain with
    | none => 1
    | some t => difficultyFromBits powLimit (if networkDifficulty then nextWork t else t.nBits)
  | some b => difficultyFromBits powLimit (if networkDifficulty then nextWork b else b.nBits)

/-- Source `GetDifficulty` (rpcblockchain.cpp 67-70). -/
def GetDifficulty (chain : List CBlockIndex) (nextWork : CBlockIndex → Nat)
    (powLimit : Nat) (blockindex : Option CBlockIndex) : ℚ :=
  GetDifficultyINTERNAL chain nextWork powLimit blockindex false

/-- Source `GetNetworkDifficulty` (rpcblockchain.cpp 72-75). -/
def GetNetworkDifficulty (chain : List CBlockIndex) (nextWork : CBlockIndex → Nat)
    (powLimit : Nat) (blockindex : Option CBlockIndex) : ℚ :=
  GetDifficultyINTERNAL chain nextWork powLimit blockindex true

/-- Source `CompareBlocksByHeight` (rpcblockchain.cpp 1007-1019): descending
height first; unequal blocks of the same height are separated by the pointer
values themselves (`id`). -/
def CompareBlocksByHeight (a b : CBlockIndex) : Bool :=
  if a.nHeight ≠ b.nHeight then decide (b.nHeight < a.nHeight) else decide (a.id < b.id)

/-- Equivalence induced by the `std::set` comparator: neither element sorts
before the other. -/
def equivBlocks (a b : CBlockIndex) : Bool :=
  !CompareBlocksByHeight a b && !CompareBlocksByHeight b a

/-- `std::set<const CBlockIndex*, CompareBlocksByHeight>::insert`: the set is
a comparator-sorted duplicate-free list; inserting an element equivalent to a
present one is a no-op. -/
def setInsert (n : CBlockIndex) : List CBlockIndex → List CBlockIndex
  | [] => [n]
  | m :: s =>
    if CompareBlocksByHeight n m then n :: m :: s
    else if CompareBlocksByHeight m n then m :: setInsert n s
    else m :: s

/-- `std::set::erase(p)`: remove the element equivalent to `p`, if any. -/
def setErase (p : CBlockIndex) (s : List CBlockIndex) : List CBlockIndex :=
  s.filter (fun m => !equivBlocks p m)

/-- One iteration of the second loop of `getchaintips` (rpcblockchain.cpp
1058-1065): erase the item's `pprev` from the candidate set.  The
`item.second != 0` null-guard of the source is vacuous here: the store holds
nodes, not nullable pointers. -/
def eraseStep (store s : List CBlockIndex) (item : CBlockIndex) : List CBlockIndex :=
  match resolveParent store item with
  | none => s
  | some p => setErase p s

/-- Candidate tip set of `getchaintips` (rpcblockchain.cpp 1053-1069): insert
every stored node, erase every node's parent, then always insert the
currently active tip. -/
def setTips (store chain : List CBlockIndex) : List CBlockIndex :=
  let s0 := store.foldl (fun s item => setInsert item s) []
  let s1 := store.foldl (eraseStep store) s0
  match Chain.Tip chain with
  | none => s1
  | some t => setInsert t s1

/-- The five `status` strings of `getchaintips` plus the `unknown`
fallback. -/
inductive TipStatus where
  | active
  | invalid
  | headersOnly
  | validFork
  | validHeaders
  | unknown
deriving DecidableEq

/-- Status classification of one tip (rpcblockchain.cpp 1087-1106): the
six rules evaluated in source order, first match wins. -/
def classify (chain : List CBlockIndex) (block : CBlockIndex) : TipStatus :=
  if Chain.Contains chain block then TipStatus.active
  else if block.nStatus &&& BLOCK_FAILED_MASK ≠ 0 then TipStatus.invalid
  else if block.nChainTx = 0 then TipStatus.headersOnly
  else if IsValid block BLOCK_VALID_SCRIPTS then TipStatus.validFork
  else if IsValid block BLOCK_VALID_TREE then TipStatus.validHeaders
  else TipStatus.unknown

/-- One object of the `getchaintips` result array.  `branchlen` and `status`
are `Option`s because the source pushes those two pairs only under
`if (forked != 0)`. -/
structure TipEntry where
  height : Int
  hash : Nat
  branchlen : Option Int
  status : Option TipStatus
deriving DecidableEq

/-- One result object of `getchaintips` (rpcblockchain.cpp 1078-1108):
height and hash always; branch length and status only when
`chainActive.FindFork(block)` found a fork point. -/
def tipEntry (store chain : List CBlockIndex) (block : CBlockIndex) : TipEntry :=
  match FindFork store chain block with
  | none => { height := block.nHeight, hash := block.hash, branchlen := none, status := none }
  | some forked =>
    { height := block.nHeight, hash := block.hash,
      branchlen := some (block.nHeight - forked.nHeight),
      status := some (classify chain block) }

/-- The `getchaintips` result array (rpcblockchain.cpp 1075-1110).  The
source iterates `setTips` through two nested `BOOST_FOREACH` loops over the
same variable name (lines 1076-1077, the inner shadowing the outer), so the
per-tip objects are emitted once per element of `setTips`. -/
def getchaintips (store chain : List CBlockIndex) : List TipEntry :=
  let tips := setTips store chain
  tips.flatMap (fun _ => tips.map (tipEntry store chain))

/-- Source `getblockhash` (rpcblockchain.cpp 287-310) after parameter
parsing: range check, then positional lookup on the active chain. -/
def getblockhash (chain : List CBlockIndex) (nHeight : Int) : Except String Nat :=
  if nHeight < 0 ∨ Chain.Height chain < nHeight then
    Except.error "Block height out of range"
  else
    match Chain.atHeight chain nHeight with
    | some b => Except.ok b.hash
    | none => Except.error "Block height out of range"

/-- The `confirmations` field computed identically by `blockheaderToJSON`
(rpcblockchain.cpp 81-85) and `blockToJSON` (108-112): `-1` unless the block
is on the main chain. -/
def blockheaderConfirmations (chain : List CBlockIndex) (blockindex : CBlockIndex) : Int :=
  if Chain.Contains chain blockindex then Chain.Height chain - blockindex.nHeight + 1 else -1

/-- A node no stored node designates as its parent: a forest leaf. -/
abbrev isLeaf (store : List CBlockIndex) (x : CBlockIndex) : Prop :=
  ∀ m ∈ store, resolveParent store m ≠ some x

/-- Well-formedness of a store / active-chain pair, from the spec's data
model: node addresses and hashes are unique keys, the chain's nodes are
stored, heights along the chain are dense from genesis, and each chain
element's parent pointer designates its predecessor. -/
abbrev WellFormed (store chain : List CBlockIndex) : Prop :=
  (∀ m ∈ store, ∀ n ∈ store, m.id = n.id → m = n) ∧
  (∀ m ∈ store, ∀ n ∈ store, m.hash = n.hash → m = n) ∧
  (∀ n ∈ chain, n ∈ store) ∧
  (∀ i : Fin chain.length, (chain.get i).nHeight = (i : Nat)) ∧
  (∀ i : Fin chain.length, ∀ j : Fin chain.length, (j : Nat) = (i : Nat) + 1 →
    (chain.get j).pprev = some (chain.get i).hash)

/-- Concrete genesis node for evaluation. -/
def gNode : CBlockIndex := ⟨0, 100, 0, none, 5, 1, 0x1d00ffff⟩

/-- Concrete height-1 child of `gNode` on the active chain. -/
def aNode : CBlockIndex := ⟨1, 101, 1, some 100, 5, 1, 0x1d00ffff⟩

/-- Concrete height-1 child of `gNode` off the active chain (a valid fork). -/
def bNode : CBlockIndex := ⟨2, 102, 1, some 100, 5, 1, 0x1d00ffff⟩

/-- Concrete root of a disjoint second tree (its own genesis, not on the
active chain). -/
def dNode : CBlockIndex := ⟨3, 200, 0, none, 5, 1, 0x1d00ffff⟩

/-- Store with a genesis and two competing height-1 children. -/
def demoStore : List CBlockIndex := [gNode, aNode, bNode]

/-- Active chain selecting `aNode` as tip. -/
def demoChain : List CBlockIndex := [gNode, aNode]

/-- Store whose third node is a disjoint tree root. -/
def cexStore : List CBlockIndex := [gNode, aNode, dNode]

/-- Active chain of height 3 (four nodes) for the out-of-range scenario. -/
def chain4 : List CBlockIndex :=
  [⟨10, 300, 0, none, 5, 1, 0⟩, ⟨11, 301, 1, some 300, 5, 1, 0⟩,
   ⟨12, 302, 2, some 301, 5, 1, 0⟩, ⟨13, 303, 3, some 302, 5, 1, 0⟩]

end Safecoin

namespace Safecoin

theorem mulLoop_eq (k : Nat) : ∀ d : ℚ, mulLoop k d = d * 256 ^ k := by
  induction k with
  | zero => intro d; simp [mulLoop]
  | succ n ih => intro d; rw [mulLoop, ih]; ring

theorem divLoop_eq (k : Nat) : ∀ d : ℚ, divLoop k d = d / 256 ^ k := by
  induction k with
  | zero => intro d; simp [divLoop]
  | succ n ih =>
    intro d
    rw [divLoop, ih]
    rw [div_div, ← pow_succ']

theorem pow256_ne (k : Nat) : (256 : ℚ) ^ k ≠ 0 := by positivity

/-- C4: the difficulty conversion forms the mantissa ratio
`minMantissa / inputMantissa` and scales it by 256 once per unit of the
minimum-difficulty exponent byte and by 1/256 once per unit of the input
exponent byte (equivalently: multiplies while the input exponent is below,
divides while above); a target whose compact bits equal the
minimum-difficulty bits yields difficulty exactly 1. -/
theorem difficulty_scaling_and_roundtrip (powLimit bits : Nat) :
    difficultyFromBits powLimit bits =
      ((powLimit &&& 0xffffff : Nat) : ℚ) / ((bits &&& 0xffffff : Nat) : ℚ)
        * (256 : ℚ) ^ (powLimit >>> 24 &&& 0xff) / (256 : ℚ) ^ (bits >>> 24 &&& 0xff) ∧
    (powLimit &&& 0xffffff ≠ 0 → difficultyFromBits powLimit powLimit = 1) := by
  have key : ∀ (d : ℚ) (s a : Nat),
      divLoop (s - a) (mulLoop (a - s) d) = d * (256 : ℚ) ^ a / (256 : ℚ) ^ s := by
    intro d s a
    rw [mulLoop_eq, divLoop_eq]
    rcases le_total s a with h | h
    · rw [Nat.sub_eq_zero_of_le h, pow_zero, div_one, eq_div_iff (pow256_ne s), mul_assoc,
        ← pow_add]
      have hsum : a - s + s = a := by omega
      rw [hsum]
    · rw [Nat.sub_eq_zero_of_le h, pow_zero, mul_one,
        div_eq_div_iff (pow256_ne _) (pow256_ne _), mul_assoc, ← pow_add]
      have hsum : a + (s - a) = s := by omega
      rw [hsum]
  constructor
  · exact key _ _ _
  · intro hm
    have hm' : ((powLimit &&& 0xffffff : Nat) : ℚ) ≠ 0 := by exact_mod_cast hm
    have h1 : difficultyFromBits powLimit powLimit =
        ((powLimit &&& 0xffffff : Nat) : ℚ) / ((powLimit &&& 0xffffff : Nat) : ℚ)
          * (256 : ℚ) ^ (powLimit >>> 24 &&& 0xff) / (256 : ℚ) ^ (powLimit >>> 24 &&& 0xff) :=
      key _ _ _
    rw [h1, div_self hm', one_mul, div_self (pow256_ne _)]

/-- C4 witness: at the classic minimum-difficulty compact value `0x1d00ffff`
the mantissa is non-zero and the conversion returns exactly 1. -/
theorem difficulty_roundtrip_witness : difficultyFromBits 0x1d00ffff 0x1d00ffff = 1 :=
  (difficulty_scaling_and_roundtrip 0x1d00ffff 0x1d00ffff).2 (by decide)

/-- C6: the getchaintips comparator is irreflexive and transitive, orders
primarily by descending height, and for nodes of distinct identity exactly
one of `cmp a b`, `cmp b a` holds (so equal-height distinct nodes never
compare equivalent). -/
theorem CompareBlocksByHeight_strict_total_order :
    (∀ a, CompareBlocksByHeight a a = false) ∧
    (∀ a b c, CompareBlocksByHeight a b = true → CompareBlocksByHeight b c = true →
      CompareBlocksByHeight a c = true) ∧
    (∀ a b, a.nHeight ≠ b.nHeight → (CompareBlocksByHeight a b = true ↔ b.nHeight < a.nHeight)) ∧
    (∀ a b, a.id ≠ b.id → (CompareBlocksByHeight a b = true ↔ CompareBlocksByHeight b a = false)) := by
  refine ⟨?_, ?_, ?_, ?_⟩
  · intro a
    simp [CompareBlocksByHeight]
  · intro a b c hab hbc
    simp only [CompareBlocksByHeight] at *
    split_ifs at * <;> simp only [decide_eq_true_eq] at * <;> omega
  · intro a b h
    simp [CompareBlocksByHeight, h]
  · intro a b h
    simp only [CompareBlocksByHeight]
    split_ifs <;> simp only [decide_eq_true_eq, decide_eq_false_iff_not, not_lt] <;> omega

/-- C6 witness: concrete instance of the exactly-one property on two
distinct equal-height nodes. -/
theorem CompareBlocksByHeight_witness :
    CompareBlocksByHeight aNode bNode = true ↔ CompareBlocksByHeight bNode aNode = false :=
  CompareBlocksByHeight_strict_total_order.2.2.2 aNode bNode (by decide)

theorem atHeight_some_bounds {chain : List CBlockIndex} {h : Int} {b : CBlockIndex}
    (hx : Chain.atHeight chain h = some b) : 0 ≤ h ∧ h ≤ Chain.Height chain := by
  unfold Chain.atHeight at hx
  split_ifs at hx with hc
  · push_neg at hc
    omega

theorem atHeight_isSome_of_in_range {chain : List CBlockIndex} {h : Int}
    (hc : ¬(h < 0 ∨ Chain.Height chain < h)) : ∃ b, Chain.atHeight chain h = some b := by
  push_neg at hc
  have hlen : h.toNat < chain.length := by
    have := hc.2
    unfold Chain.Height at this
    omega
  refine ⟨chain.get ⟨h.toNat, hlen⟩, ?_⟩
  unfold Chain.atHeight
  rw [if_neg (by push_neg; exact hc)]
  exact List.get?_eq_get hlen

/-- C8: the positional lookup of `getblockhash` fails with the out-of-range
error exactly when the requested height is negative or exceeds the tip
height, and otherwise returns the hash of the active-chain node at that
height. -/
theorem getblockhash_out_of_range_iff (chain : List CBlockIndex) (h : Int) :
    ((∃ msg, getblockhash chain h = Except.error msg) ↔ (h < 0 ∨ Chain.Height chain < h)) ∧
    (∀ b, Chain.atHeight chain h = some b → getblockhash chain h = Except.ok b.hash) := by
  unfold getblockhash
  split_ifs with hc
  · refine ⟨by simp [hc], ?_⟩
    intro b hb
    have := atHeight_some_bounds hb
    omega
  · obtain ⟨b, hb⟩ := atHeight_isSome_of_in_range hc
    rw [hb]
    refine ⟨by simp [hc], ?_⟩
    intro b' hb'
    injection hb' with hbb
    subst hbb
    rfl

/-- C8 witness: on a chain of height 3, height 5 is out of range and the
lookup fails; height 2 succeeds with the stored hash. -/
theorem getblockhash_witness :
    (∃ msg, getblockhash chain4 5 = Except.error msg) ∧ getblockhash chain4 2 = Except.ok 302 :=
  ⟨(getblockhash_out_of_range_iff chain4 5).1.mpr (by decide),
   (getblockhash_out_of_range_iff chain4 2).2 ⟨12, 302, 2, some 301, 5, 1, 0⟩ (by decide)⟩

/-- C9: with an empty active chain (no tip) the network-difficulty query
returns the fixed fallback 1. -/
theorem networkDifficulty_empty_chain_fallback (chain : List CBlockIndex)
    (nextWork : CBlockIndex → Nat) (powLimit : Nat) (htip : Chain.Tip chain = none) :
    GetNetworkDifficulty chain nextWork powLimit none = 1 := by
  simp [GetNetworkDifficulty, GetDifficultyINTERNAL, htip]

/-- C9 witness: the concrete empty chain. -/
theorem networkDifficulty_empty_witness :
    GetNetworkDifficulty [] (fun _ => 0) 0 none = 1 :=
  networkDifficulty_empty_chain_fallback [] (fun _ => 0) 0 rfl

/-- C10: the confirmations field equals tip height minus node height plus
one when the node is on the active chain and `-1` otherwise; it is never 0,
and it is at least 1 exactly when the node is on the active chain. -/
theorem confirmations_characterization (chain : List CBlockIndex) (b : CBlockIndex) :
    (Chain.Contains chain b = true →
      blockheaderConfirmations chain b = Chain.Height chain - b.nHeight + 1) ∧
    (Chain.Contains chain b = false → blockheaderConfirmations chain b = -1) ∧
    blockheaderConfirmations chain b ≠ 0 ∧
    (1 ≤ blockheaderConfirmations chain b ↔ Chain.Contains chain b = true) := by
  cases hC : Chain.Contains chain b with
  | false =>
    have hconf : blockheaderConfirmations chain b = -1 := by
      simp [blockheaderConfirmations, hC]
    refine ⟨?_, fun _ => hconf, ?_, ?_⟩
    · intro htrue
      cases htrue
    · rw [hconf]
      omega
    · rw [hconf]
      exact iff_of_false (by omega) (by simp)
  | true =>
    have hb : Chain.atHeight chain b.nHeight = some b := by
      simpa [Chain.Contains] using hC
    have hbd := atHeight_some_bounds hb
    have hconf : blockheaderConfirmations chain b = Chain.Height chain - b.nHeight + 1 := by
      simp [blockheaderConfirmations, hC]
    refine ⟨fun _ => hconf, ?_, ?_, ?_⟩
    · intro hfalse
      cases hfalse
    · rw [hconf]
      omega
    · rw [hconf]
      exact iff_of_true (by omega) rfl

/-- C10 witness: concrete confirmations on the demo chain. -/
theorem confirmations_witness :
    blockheaderConfirmations demoChain gNode = Chain.Height demoChain - gNode.nHeight + 1 :=
  (confirmations_characterization demoChain gNode).1 (by decide)

/-- C1: evaluation of `getchaintips` on a two-tip store: the candidate set
has two tips and the active tip is `aNode`, yet the returned array contains
two entries whose status is `active` (each tip is emitted once per element
of the set because the source duplicates the output loop), not exactly
one. -/
theorem getchaintips_duplicate_active_entries :
    (setTips demoStore demoChain).length = 2 ∧
    Chain.Tip demoChain = some aNode ∧
    (getchaintips demoStore demoChain).countP
      (fun e => decide (e.status = some TipStatus.active)) = 2 := by
  decide

/-- C7 counterexample: in a store containing a disjoint second tree root,
the result array of `getchaintips` contains an entry carrying neither a
branch length nor a status. -/
theorem tipEntry_missing_fields_on_disjoint_tip :
    ∃ e ∈ getchaintips cexStore demoChain, e.branchlen = none ∧ e.status = none := by
  decide

/-- C7 (amended): every entry carries height and hash; it carries the branch
length and status fields exactly when the fork-locating walk found a common
node with the active chain. -/
theorem tipEntry_fields_present_iff_fork (store chain : List CBlockIndex) (block : CBlockIndex) :
    (tipEntry store chain block).height = block.nHeight ∧
    (tipEntry store chain block).hash = block.hash ∧
    ((tipEntry store chain block).branchlen.isSome = true ↔
      (FindFork store chain block).isSome = true) ∧
    ((tipEntry store chain block).status.isSome = true ↔
      (FindFork store chain block).isSome = true) := by
  cases h : FindFork store chain block <;> simp [tipEntry, h]

end Safecoin

namespace Safecoin

theorem equivBlocks_iff (a b : CBlockIndex) :
    equivBlocks a b = true ↔ a.nHeight = b.nHeight ∧ a.id = b.id := by
  simp only [equivBlocks, CompareBlocksByHeight, Bool.and_eq_true, Bool.not_eq_true']
  split_ifs <;> simp_all <;> omega

theorem equivBlocks_symm (a b : CBlockIndex) : equivBlocks a b = equivBlocks b a := by
  simp [equivBlocks, Bool.and_comm]

theorem equivBlocks_refl (a : CBlockIndex) : equivBlocks a a = true :=
  (equivBlocks_iff a a).mpr ⟨rfl, rfl⟩

theorem mem_setInsert_elim {x n : CBlockIndex} : ∀ {s : List CBlockIndex},
    x ∈ setInsert n s → x = n ∨ x ∈ s := by
  intro s
  induction s with
  | nil => intro h; simpa [setInsert] using h
  | cons m s ih =>
    intro h
    simp only [setInsert] at h
    split_ifs at h with h1 h2
    · simpa using h
    · rcases List.mem_cons.mp h with h3 | h3
      · right; simp [h3]
      · rcases ih h3 with h4 | h4
        · left; exact h4
        · right; simp [h4]
    · right; exact h

theorem mem_setInsert_of_mem {x n : CBlockIndex} : ∀ {s : List CBlockIndex},
    x ∈ s → x ∈ setInsert n s := by
  intro s
  induction s with
  | nil => intro h; cases h
  | cons m s ih =>
    intro h
    simp only [setInsert]
    split_ifs with h1 h2
    · exact List.mem_cons_of_mem _ h
    · rcases List.mem_cons.mp h with h3 | h3
      · simp [h3]
      · simp [ih h3]
    · exact h

theorem self_mem_setInsert {n : CBlockIndex} : ∀ {s : List CBlockIndex},
    (∀ m ∈ s, equivBlocks n m = true → m = n) → n ∈ setInsert n s := by
  intro s
  induction s with
  | nil => intro _; simp [setInsert]
  | cons m s ih =>
    intro hcond
    simp only [setInsert]
    split_ifs with h1 h2
    · simp
    · exact List.mem_cons_of_mem _
        (ih (fun k hk he => hcond k (List.mem_cons_of_mem _ hk) he))
    · have hm : m = n := by
        apply hcond m (List.mem_cons_self _ _)
        simp only [equivBlocks, Bool.and_eq_true, Bool.not_eq_true']
        exact ⟨by simpa using h1, by simpa using h2⟩
      simp [hm]

theorem mem_foldl_setInsert_elim {x : CBlockIndex} : ∀ (l acc : List CBlockIndex),
    x ∈ l.foldl (fun s item => setInsert item s) acc → x ∈ acc ∨ x ∈ l := by
  intro l
  induction l with
  | nil => intro acc h; exact Or.inl h
  | cons i l ih =>
    intro acc h
    rcases ih (setInsert i acc) h with h1 | h1
    · rcases mem_setInsert_elim h1 with h2 | h2
      · right; simp [h2]
      · left; exact h2
    · right; simp [h1]

theorem mem_foldl_setInsert_acc {x : CBlockIndex} : ∀ (l acc : List CBlockIndex),
    x ∈ acc → x ∈ l.foldl (fun s item => setInsert item s) acc := by
  intro l
  induction l with
  | nil => intro acc h; exact h
  | cons i l ih =>
    intro acc h
    exact ih _ (mem_setInsert_of_mem h)

theorem mem_foldl_setInsert_of_mem {x : CBlockIndex} : ∀ (l acc : List CBlockIndex),
    (∀ a b : CBlockIndex, (a ∈ acc ∨ a ∈ l) → (b ∈ acc ∨ b ∈ l) →
      equivBlocks a b = true → a = b) →
    x ∈ l → x ∈ l.foldl (fun s item => setInsert item s) acc := by
  intro l
  induction l with
  | nil => intro acc _ h; cases h
  | cons i l ih =>
    intro acc hcond h
    rw [List.foldl_cons]
    rcases List.mem_cons.mp h with rfl | h1
    · apply mem_foldl_setInsert_acc
      apply self_mem_setInsert
      intro m hm he
      exact hcond m x (Or.inl hm) (Or.inr (List.mem_cons_self _ _))
        (equivBlocks_symm x m ▸ he)
    · apply ih (setInsert i acc) ?_ h1
      intro a b ha hb he
      refine hcond a b ?_ ?_ he
      · rcases ha with ha | ha
        · rcases mem_setInsert_elim ha with h2 | h2
          · right; simp [h2]
          · left; exact h2
        · right; exact List.mem_cons_of_mem _ ha
      · rcases hb with hb | hb
        · rcases mem_setInsert_elim hb with h2 | h2
          · right; simp [h2]
          · left; exact h2
        · right; exact List.mem_cons_of_mem _ hb

theorem mem_setErase {x p : CBlockIndex} {s : List CBlockIndex} :
    x ∈ setErase p s ↔ x ∈ s ∧ equivBlocks p x = false := by
  simp [setErase, List.mem_filter]

theorem mem_eraseStep {x item : CBlockIndex} {store s : List CBlockIndex} :
    x ∈ eraseStep store s item ↔
      x ∈ s ∧ ∀ p, resolveParent store item = some p → equivBlocks p x = false := by
  unfold eraseStep
  cases hr : resolveParent store item with
  | none => simp
  | some p => simp [mem_setErase]

theorem mem_foldl_eraseStep {x : CBlockIndex} {store : List CBlockIndex} :
    ∀ (l acc : List CBlockIndex),
    x ∈ l.foldl (eraseStep store) acc ↔
      x ∈ acc ∧ ∀ item ∈ l, ∀ p, resolveParent store item = some p →
        equivBlocks p x = false := by
  intro l
  induction l with
  | nil => intro acc; simp
  | cons i l ih =>
    intro acc
    rw [List.foldl_cons, ih, mem_eraseStep]
    constructor
    · rintro ⟨⟨h1, h2⟩, h3⟩
      refine ⟨h1, ?_⟩
      intro item him p hp
      rcases List.mem_cons.mp him with rfl | him'
      · exact h2 p hp
      · exact h3 item him' p hp
    · rintro ⟨h1, h2⟩
      exact ⟨⟨h1, fun p hp => h2 i (List.mem_cons_self _ _) p hp⟩,
             fun item him p hp => h2 item (List.mem_cons_of_mem _ him) p hp⟩

theorem lookupHash_self {store : List CBlockIndex} {n : CBlockIndex}
    (hinj : ∀ m ∈ store, ∀ k ∈ store, m.hash = k.hash → m = k)
    (hn : n ∈ store) : lookupHash store n.hash = some n := by
  unfold lookupHash
  cases hf : store.find? (fun m => m.hash == n.hash) with
  | none =>
    have := List.find?_eq_none.mp hf n hn
    simp at this
  | some m =>
    have hm : m ∈ store := List.mem_of_find?_eq_some hf
    have hpm := List.find?_some hf
    have : m = n := hinj m hm n hn (by simpa using hpm)
    rw [this]

theorem resolveParent_mem {store : List CBlockIndex} {m p : CBlockIndex}
    (h : resolveParent store m = some p) : p ∈ store := by
  unfold resolveParent at h
  cases hm : m.pprev with
  | none => rw [hm] at h; cases h
  | some hh => rw [hm] at h; exact List.mem_of_find?_eq_some h

theorem mem_setTips_iff {store chain : List CBlockIndex} {t : CBlockIndex}
    (hWF : WellFormed store chain) (htip : Chain.Tip chain = some t) (x : CBlockIndex) :
    x ∈ setTips store chain ↔ (x ∈ store ∧ isLeaf store x) ∨ x = t := by
  obtain ⟨hid, hhash, hsub, hheights, hlinks⟩ := hWF
  have htchain : t ∈ chain := by
    have hmem : t ∈ chain.getLast? := htip
    obtain ⟨hne, heq⟩ := List.mem_getLast?_eq_getLast hmem
    exact heq ▸ List.getLast_mem hne
  have htstore : t ∈ store := hsub t htchain
  have hs0 : ∀ y : CBlockIndex,
      y ∈ store.foldl (fun s item => setInsert item s) [] ↔ y ∈ store := by
    intro y
    constructor
    · intro h
      rcases mem_foldl_setInsert_elim store [] h with h1 | h1
      · cases h1
      · exact h1
    · intro h
      apply mem_foldl_setInsert_of_mem store [] ?_ h
      intro a b ha hb he
      rcases ha with ha | ha
      · cases ha
      rcases hb with hb | hb
      · cases hb
      exact hid a ha b hb ((equivBlocks_iff a b).mp he).2
  have hsetTips : setTips store chain =
      setInsert t (store.foldl (eraseStep store)
        (store.foldl (fun s item => setInsert item s) [])) := by
    unfold setTips
    rw [htip]
  rw [hsetTips]
  constructor
  · intro h
    rcases mem_setInsert_elim h with rfl | h1
    · exact Or.inr rfl
    · rw [mem_foldl_eraseStep] at h1
      obtain ⟨h2, h3⟩ := h1
      have hxs : x ∈ store := (hs0 x).mp h2
      refine Or.inl ⟨hxs, ?_⟩
      intro m hm hres
      have := h3 m hm x hres
      rw [equivBlocks_refl] at this
      cases this
  · intro h
    rcases h with ⟨hxs, hleaf⟩ | rfl
    · apply mem_setInsert_of_mem
      rw [mem_foldl_eraseStep]
      refine ⟨(hs0 x).mpr hxs, ?_⟩
      intro item him p hp
      have hpm : p ∈ store := resolveParent_mem hp
      cases he : equivBlocks p x with
      | false => rfl
      | true =>
        have : p = x := hid p hpm x hxs ((equivBlocks_iff p x).mp he).2
        rw [this] at hp
        exact absurd hp (hleaf item him)
    · apply self_mem_setInsert
      intro m hm he
      have hms : m ∈ store := by
        rw [mem_foldl_eraseStep] at hm
        exact (hs0 m).mp hm.1
      exact hid m hms x htstore ((equivBlocks_iff x m).mp
        (equivBlocks_symm m x ▸ he)).2.symm

end Safecoin

namespace Safecoin

theorem tip_eq_get {chain : List CBlockIndex} {t : CBlockIndex}
    (htip : Chain.Tip chain = some t) :
    ∃ h : chain.length - 1 < chain.length, chain.get ⟨chain.length - 1, h⟩ = t := by
  have hmem : t ∈ chain.getLast? := htip
  obtain ⟨hne, heq⟩ := List.mem_getLast?_eq_getLast hmem
  have hlen : 0 < chain.length := List.length_pos.mpr hne
  refine ⟨by omega, ?_⟩
  rw [heq, List.getLast_eq_getElem, List.get_eq_getElem]

theorem contains_tip {store chain : List CBlockIndex} {t : CBlockIndex}
    (hWF : WellFormed store chain) (htip : Chain.Tip chain = some t) :
    Chain.Contains chain t = true := by
  obtain ⟨hid, hhash, hsub, hheights, hlinks⟩ := hWF
  obtain ⟨hlt, hget⟩ := tip_eq_get htip
  have hlen : 0 < chain.length := by omega
  have hh : t.nHeight = ((chain.length - 1 : Nat) : Int) := by
    have := hheights ⟨chain.length - 1, hlt⟩
    rw [hget] at this
    exact this
  have hcond : ¬(t.nHeight < 0 ∨ Chain.Height chain < t.nHeight) := by
    unfold Chain.Height
    rw [hh]
    omega
  have hheight : Chain.atHeight chain t.nHeight = some t := by
    unfold Chain.atHeight
    rw [if_neg hcond, hh]
    have htn : ((chain.length - 1 : Nat) : Int).toNat = chain.length - 1 := by omega
    rw [htn, List.get?_eq_get hlt, hget]
  simp [Chain.Contains, hheight]

theorem classify_active_contains {chain : List CBlockIndex} {b : CBlockIndex}
    (h : classify chain b = TipStatus.active) : Chain.Contains chain b = true := by
  by_contra hc
  have hc' : Chain.Contains chain b = false := by
    cases hC : Chain.Contains chain b
    · rfl
    · exact absurd hC hc
  unfold classify at h
  rw [if_neg (by rw [hc']; exact Bool.false_ne_true)] at h
  split_ifs at h

theorem contains_only_tip {store chain : List CBlockIndex} {t b : CBlockIndex}
    (hWF : WellFormed store chain) (htip : Chain.Tip chain = some t)
    (hb : b ∈ setTips store chain) :
    Chain.Contains chain b = true ↔ b = t := by
  constructor
  · intro hc
    rcases (mem_setTips_iff hWF htip b).mp hb with ⟨hbs, hleaf⟩ | rfl
    · obtain ⟨hid, hhash, hsub, hheights, hlinks⟩ := hWF
      have hb2 : Chain.atHeight chain b.nHeight = some b := by
        simpa [Chain.Contains] using hc
      have hbounds := atHeight_some_bounds hb2
      have hget : chain.get? b.nHeight.toNat = some b := by
        unfold Chain.atHeight at hb2
        rw [if_neg (by omega)] at hb2
        exact hb2
      obtain ⟨hlt, hbget⟩ := List.get?_eq_some.mp hget
      by_cases hi : b.nHeight.toNat = chain.length - 1
      · obtain ⟨hlt2, hget2⟩ := tip_eq_get htip
        rw [← hbget, ← hget2]
        congr 1
        exact Fin.ext hi
      · exfalso
        have hlt3 : b.nHeight.toNat + 1 < chain.length := by omega
        have hlink := hlinks ⟨b.nHeight.toNat, by omega⟩ ⟨b.nHeight.toNat + 1, hlt3⟩ rfl
        rw [hbget] at hlink
        have hcs : chain.get ⟨b.nHeight.toNat + 1, hlt3⟩ ∈ store :=
          hsub _ (List.get_mem _ _ _)
        have hres : resolveParent store (chain.get ⟨b.nHeight.toNat + 1, hlt3⟩) = some b := by
          unfold resolveParent
          rw [hlink]
          exact lookupHash_self hhash hbs
        exact hleaf _ hcs hres
    · rfl
  · rintro rfl
    exact contains_tip hWF htip

/-- C3: under a well-formed store / chain pair, the candidate tip set
computed by getchaintips is exactly the stored forest leaves (nodes that no
stored node designates as parent) together with the active-chain tip, the
latter inserted unconditionally. -/
theorem setTips_eq_leaves_union_tip (store chain : List CBlockIndex) (t : CBlockIndex)
    (hWF : WellFormed store chain) (htip : Chain.Tip chain = some t) :
    ∀ x, x ∈ setTips store chain ↔ (x ∈ store ∧ isLeaf store x) ∨ x = t :=
  fun x => mem_setTips_iff hWF htip x

/-- C3 witness: on the fork demo, the side-branch leaf is in the candidate
set. -/
theorem setTips_member_witness : bNode ∈ setTips demoStore demoChain :=
  (setTips_eq_leaves_union_tip demoStore demoChain aNode (by decide) rfl bNode).mpr
    (Or.inl ⟨by decide, by decide⟩)

/-- C2: tip classification follows the six rules in source priority order
(first match wins), and under a well-formed store / chain pair a reported
tip is classified `active` exactly when it is the active-chain tip. -/
theorem classify_priority_order (store chain : List CBlockIndex) (t : CBlockIndex)
    (hWF : WellFormed store chain) (htip : Chain.Tip chain = some t) :
    (∀ b, Chain.Contains chain b = true → classify chain b = TipStatus.active) ∧
    (∀ b, Chain.Contains chain b = false → b.nStatus &&& BLOCK_FAILED_MASK ≠ 0 →
      classify chain b = TipStatus.invalid) ∧
    (∀ b, Chain.Contains chain b = false → b.nStatus &&& BLOCK_FAILED_MASK = 0 →
      b.nChainTx = 0 → classify chain b = TipStatus.headersOnly) ∧
    (∀ b, Chain.Contains chain b = false → b.nStatus &&& BLOCK_FAILED_MASK = 0 →
      b.nChainTx ≠ 0 → IsValid b BLOCK_VALID_SCRIPTS = true →
      classify chain b = TipStatus.validFork) ∧
    (∀ b, Chain.Contains chain b = false → b.nStatus &&& BLOCK_FAILED_MASK = 0 →
      b.nChainTx ≠ 0 → IsValid b BLOCK_VALID_SCRIPTS = false →
      IsValid b BLOCK_VALID_TREE = true → classify chain b = TipStatus.validHeaders) ∧
    (∀ b, Chain.Contains chain b = false → b.nStatus &&& BLOCK_FAILED_MASK = 0 →
      b.nChainTx ≠ 0 → IsValid b BLOCK_VALID_SCRIPTS = false →
      IsValid b BLOCK_VALID_TREE = false → classify chain b = TipStatus.unknown) ∧
    (∀ b ∈ setTips store chain, classify chain b = TipStatus.active ↔ b = t) := by
  refine ⟨?_, ?_, ?_, ?_, ?_, ?_, ?_⟩
  · intro b hC
    simp [classify, hC]
  · intro b hC hf
    simp [classify, hC, hf]
  · intro b hC hf htx
    simp [classify, hC, hf, htx]
  · intro b hC hf htx hv
    simp [classify, hC, hf, htx, hv]
  · intro b hC hf htx hv ht
    simp [classify, hC, hf, htx, hv, ht]
  · intro b hC hf htx hv ht
    simp [classify, hC, hf, htx, hv, ht]
  · intro b hbmem
    constructor
    · intro hcl
      exact (contains_only_tip hWF htip hbmem).mp (classify_active_contains hcl)
    · rintro rfl
      simp [classify, contains_tip hWF htip]

/-- C2 witness: on the fork demo the side-branch tip is reported and is
classified `active` only if it were the active tip (it is not). -/
theorem classify_active_iff_witness :
    classify demoChain bNode = TipStatus.active ↔ bNode = aNode :=
  (classify_priority_order demoStore demoChain aNode (by decide) rfl).2.2.2.2.2.2
    bNode (by decide)

/-- C5: for every reported tip with a fork point the branch length is the
tip height minus the fork-point height, and for the active tip the fork
point is the tip itself so the branch length is 0. -/
theorem branchlen_eq_fork_distance (store chain : List CBlockIndex) (t : CBlockIndex)
    (hWF : WellFormed store chain) (htip : Chain.Tip chain = some t) :
    (∀ b f, FindFork store chain b = some f →
      (tipEntry store chain b).branchlen = some (b.nHeight - f.nHeight)) ∧
    FindFork store chain t = some t ∧
    (tipEntry store chain t).branchlen = some 0 := by
  have hFT : FindFork store chain t = some t := by
    unfold FindFork findForkAux
    rw [if_pos (contains_tip hWF htip)]
  refine ⟨?_, hFT, ?_⟩
  · intro b f hf
    simp [tipEntry, hf]
  · simp [tipEntry, hFT]

/-- C5 witness: the active demo tip is its own fork point. -/
theorem findFork_tip_witness : FindFork demoStore demoChain aNode = some aNode :=
  (branchlen_eq_fork_distance demoStore demoChain aNode (by decide) rfl).2.1

end Safecoin
